import Mathlib

/-!
Verification of the retrieval-and-clustering engine of the techwolf-hackathon
repository (layer2): vacancy store build/load, dual-channel retrieval,
exclusion filter, rerank gate, and role clustering.

The Python sources are shallowly embedded below.  Python floats are modelled
as exact rationals, Python dicts (which preserve insertion order) as
association lists, and the external collaborators (JobBERT encoder, FAISS
search, the LLM scorer, sklearn agglomerative clustering) as function-valued
parameters.
-/

set_option maxRecDepth 4000

/-! ## Small Python-semantics helpers -/

/-- Python str.strip: drop leading and trailing whitespace characters. -/
def pyStrip (s : String) : String :=
  ⟨((s.toList.dropWhile Char.isWhitespace).reverse.dropWhile Char.isWhitespace).reverse⟩

/-- Python str.lower, character-wise. -/
def pyLower (s : String) : String := ⟨s.toList.map Char.toLower⟩

/-- Python string slicing s[:n], character-based. -/
def pyTakeStr (s : String) (n : Nat) : String := ⟨s.toList.take n⟩

/-- Does the character list start with the given needle? Models Python
str.startswith at the list level. -/
def startsWithL : List Char → List Char → Bool
  | [], _ => true
  | _ :: _, [] => false
  | a :: as, b :: bs => a == b && startsWithL as bs

/-- Python substring containment (the `in` operator on strings). -/
def hasSub (needle : List Char) : List Char → Bool
  | [] => startsWithL needle []
  | c :: rest => startsWithL needle (c :: rest) || hasSub needle rest

theorem startsWithL_iff (n h : List Char) :
    startsWithL n h = true ↔ ∃ t, h = n ++ t := by
  induction n generalizing h with
  | nil => simp [startsWithL]
  | cons a as ih =>
    cases h with
    | nil => simp [startsWithL]
    | cons b bs =>
      simp only [startsWithL, Bool.and_eq_true, beq_iff_eq, ih]
      constructor
      · rintro ⟨rfl, t, rfl⟩; exact ⟨t, rfl⟩
      · rintro ⟨t, ht⟩
        injection ht with h1 h2
        exact ⟨h1.symm, t, h2⟩

theorem hasSub_iff (n h : List Char) :
    hasSub n h = true ↔ ∃ p t, h = p ++ n ++ t := by
  induction h with
  | nil =>
    simp only [hasSub, startsWithL_iff]
    constructor
    · rintro ⟨t, ht⟩; exact ⟨[], t, by simpa using ht⟩
    · rintro ⟨p, t, ht⟩
      have hp : p = [] := by cases p with
        | nil => rfl
        | cons x xs => simp at ht
      subst hp; exact ⟨t, by simpa using ht⟩
  | cons c rest ih =>
    simp only [hasSub, Bool.or_eq_true, startsWithL_iff, ih]
    constructor
    · rintro (⟨t, ht⟩ | ⟨p, t, ht⟩)
      · exact ⟨[], t, by simpa using ht⟩
      · exact ⟨c :: p, t, by simp [ht]⟩
    · rintro ⟨p, t, ht⟩
      cases p with
      | nil => exact Or.inl ⟨t, by simpa using ht⟩
      | cons x xs =>
        injection ht with h1 h2
        exact Or.inr ⟨xs, t, h2⟩

/-! ## Configuration constants (src/layer2/config.py) -/

def RETRIEVAL_TOP_K : Nat := 10

def RERANK_THRESHOLD : ℚ := 3.0

def CLUSTER_DISTANCE_THRESHOLD : ℚ := 0.35

def EXCLUSION_TITLE_KEYWORDS : List String :=
  ["software engineer", "software developer", "frontend developer",
   "backend developer", "full stack developer", "fullstack developer",
   "web developer", "mobile developer", "devops", "sre",
   "site reliability", "infrastructure engineer", "platform engineer",
   "cloud engineer", "data engineer", "etl developer",
   "qa engineer", "test engineer", "quality assurance engineer",
   "sdet", "automation engineer", "product manager",
   "it administrator", "system administrator", "sysadmin",
   "network administrator", "database administrator", "dba",
   "release engineer", "build engineer", "mlops"]

/-! ## Exclusion filter (src/layer2/services/vacancy_store.py, is_excluded_role) -/

/-- Embedding of `is_excluded_role(title, description)`.  The Python body
lowercases the title and returns True as soon as some configured keyword is a
substring of it; the description parameter is never read. -/
def is_excluded_role (title : String) (description : String := "") : Bool :=
  let title_lower := pyLower title
  EXCLUSION_TITLE_KEYWORDS.any (fun kw => hasSub kw.toList title_lower.toList)

/-- C7: the exclusion predicate returns true iff the lowercased title contains
at least one configured keyword as a substring, and for any title and any two
description values the result is identical (the description argument never
influences the result). -/
theorem is_excluded_role_spec (title d₁ d₂ : String) :
    (is_excluded_role title d₁ = true ↔
      ∃ kw ∈ EXCLUSION_TITLE_KEYWORDS,
        ∃ p t, (pyLower title).toList = p ++ kw.toList ++ t) ∧
    is_excluded_role title d₁ = is_excluded_role title d₂ := by
  constructor
  · simp only [is_excluded_role, List.any_eq_true]
    constructor
    · rintro ⟨kw, hkw, hsub⟩
      exact ⟨kw, hkw, (hasSub_iff _ _).mp hsub⟩
    · rintro ⟨kw, hkw, hsub⟩
      exact ⟨kw, hkw, (hasSub_iff _ _).mpr hsub⟩
  · rfl

/-- C7 witness: evaluated at a concrete excluded title with two distinct
descriptions. -/
theorem is_excluded_role_spec_witness :
    is_excluded_role "Senior DevOps Lead" "descA" = true ∧
    is_excluded_role "Senior DevOps Lead" "descA" =
      is_excluded_role "Senior DevOps Lead" "descB" := by
  refine ⟨?_, (is_excluded_role_spec "Senior DevOps Lead" "descA" "descB").2⟩
  exact (is_excluded_role_spec "Senior DevOps Lead" "descA" "descB").1.mpr
    ⟨"devops", by decide, ⟨"senior ".toList, " lead".toList, by decide⟩⟩

/-! ## Association lists: the model of Python dicts

Python dicts preserve insertion order; assignment to an existing key keeps its
position, assignment to a fresh key appends.  `alookup`/`aupdate` model plain
dict indexing and assignment, `ginsert` models `d.setdefault(k, []).append(v)`
for `defaultdict(list)`-style accumulation. -/

def alookup {κ α : Type} [DecidableEq κ] : List (κ × α) → κ → Option α
  | [], _ => none
  | (k, v) :: rest, key => if k = key then some v else alookup rest key

def aupdate {κ α : Type} [DecidableEq κ] : List (κ × α) → κ → α → List (κ × α)
  | [], key, v => [(key, v)]
  | (k, w) :: rest, key, v =>
    if k = key then (k, v) :: rest else (k, w) :: aupdate rest key v

def ginsert {κ β : Type} [DecidableEq κ] :
    List (κ × List β) → κ → β → List (κ × List β)
  | [], key, v => [(key, [v])]
  | (k, vs) :: rest, key, v =>
    if k = key then (k, vs ++ [v]) :: rest else (k, vs) :: ginsert rest key v

theorem alookup_aupdate_self {κ α : Type} [DecidableEq κ]
    (m : List (κ × α)) (k : κ) (v : α) : alookup (aupdate m k v) k = some v := by
  induction m with
  | nil => simp [aupdate, alookup]
  | cons p rest ih =>
    by_cases h : p.1 = k
    · simp [aupdate, alookup, h]
    · simp [aupdate, alookup, h, ih]

theorem alookup_aupdate_ne {κ α : Type} [DecidableEq κ]
    (m : List (κ × α)) (k k' : κ) (v : α) (h : k' ≠ k) :
    alookup (aupdate m k v) k' = alookup m k' := by
  induction m with
  | nil =>
    have hne : ¬ k = k' := fun he => h he.symm
    simp [aupdate, alookup, hne]
  | cons p rest ih =>
    obtain ⟨pk, pv⟩ := p
    by_cases hp : pk = k
    · subst hp
      have hne : ¬ pk = k' := fun he => h he.symm
      simp [aupdate, alookup, hne]
    · simp [aupdate, alookup, hp, ih]

/-! ## Vacancy store artifacts and load (src/layer2/services/vacancy_store.py) -/

/-- One line of data/vacancy_metadata.jsonl, exactly the dict written by
VacancyStore.preprocess step 4. -/
structure MetaRec where
  identifier : String := ""
  title : String := ""
  enriched_job_title : String := ""
  description : String := ""
  enriched_skills : String := ""
  enriched_tasks : String := ""
  enriched_industry : String := ""
  enriched_contract_type : String := ""
  country : String := ""
  locality : String := ""
deriving DecidableEq

/-- A FAISS IndexFlatIP: a flat store of vectors queried by inner product.
`ntotal` is the number of stored vectors. -/
structure FaissIndexData where
  dim : Nat
  vecs : List (List ℚ)
deriving DecidableEq

def FaissIndexData.ntotal (ix : FaissIndexData) : Nat := ix.vecs.length

/-- The three persisted artifacts; a `none` component models an absent file
(faiss.read_index / open / np.load raise on a missing path). -/
structure Artifacts where
  faiss_index : Option FaissIndexData
  vacancy_meta : Option (List MetaRec)
  embeddings : Option (List (List ℚ))

/-- In-memory state after VacancyStore.load_index. -/
structure LoadedStore where
  index : FaissIndexData
  records : List MetaRec
  embeddings : List (List ℚ)
  title_to_indices : List (String × List Nat)
deriving DecidableEq

inductive LoadError where
  | missing : String → LoadError
deriving DecidableEq

def isOkE {ε α : Type} : Except ε α → Bool
  | .ok _ => true
  | .error _ => false

/-- Embedding of VacancyStore.load_index (lines 48-75): read the index, the
metadata lines and the embedding matrix in that order, failing on the first
absent artifact; build the lowercased title-to-row-indices lookup; no
row-count comparison of any kind is performed. -/
def load_index (a : Artifacts) : Except LoadError LoadedStore :=
  match a.faiss_index with
  | none => .error (.missing "faiss index")
  | some ix =>
    match a.vacancy_meta with
    | none => .error (.missing "vacancy metadata")
    | some recs =>
      match a.embeddings with
      | none => .error (.missing "embeddings")
      | some emb =>
        let t2i := recs.enum.foldl
          (fun m p => ginsert m (pyLower p.2.enriched_job_title) p.1) []
        .ok { index := ix, records := recs, embeddings := emb,
              title_to_indices := t2i }

/-- A concrete misaligned artifact triple: index holds 2 vectors, metadata
holds 1 record, embedding matrix holds 3 rows. -/
def artifactsMisaligned : Artifacts :=
  { faiss_index := some { dim := 1, vecs := [[1], [0]] },
    vacancy_meta := some [{ identifier := "v1", enriched_job_title := "Nurse" }],
    embeddings := some [[1], [0], [1]] }

/-- C1 counterexample: load_index completes successfully on artifacts whose
index size (2), metadata row count (1) and embedding row count (3) are
pairwise different, refuting that load never completes on misaligned
artifacts. -/
theorem load_index_misaligned_completes :
    isOkE (load_index artifactsMisaligned) = true ∧
    (artifactsMisaligned.faiss_index.map FaissIndexData.ntotal = some 2) ∧
    (artifactsMisaligned.vacancy_meta.map List.length = some 1) ∧
    (artifactsMisaligned.embeddings.map List.length = some 3) := by
  refine ⟨rfl, rfl, rfl, rfl⟩

/-- C1 amended: load_index fails exactly when one of the three artifacts is
absent; when all three are present it completes successfully regardless of
whether the row counts are aligned (no alignment check is performed). -/
theorem load_index_ok_iff_artifacts_present (a : Artifacts) :
    isOkE (load_index a) = true ↔
      (a.faiss_index.isSome ∧ a.vacancy_meta.isSome ∧ a.embeddings.isSome) := by
  rcases a with ⟨ix, meta, emb⟩
  cases ix <;> cases meta <;> cases emb <;> simp [load_index, isOkE]

/-! ## Preprocess: offline build (VacancyStore.preprocess, lines 136-220) -/

/-- A raw line of the gzipped vacancy collection, restricted to the keys the
build step reads (absent keys default to the empty string, as rec.get does). -/
structure RawRec where
  identifier : String := ""
  title : String := ""
  enriched_job_title : String := ""
  description : String := ""
  enriched_skills : String := ""
  enriched_tasks : String := ""
  enriched_industry : String := ""
  enriched_contract_type : String := ""
  country : String := ""
  address_addresslocality : String := ""
deriving DecidableEq

/-- Python list indexing, total via an (unreachable) default. -/
def pyGetD {α : Type} (l : List α) (i : Nat) (d : α) : α := (l[i]?).getD d

/-- The metadata dict written per record in preprocess step 4. -/
def mkMeta (r : RawRec) : MetaRec :=
  { identifier := r.identifier,
    title := r.title,
    enriched_job_title := r.enriched_job_title,
    description := pyTakeStr r.description 500,
    enriched_skills := r.enriched_skills,
    enriched_tasks := r.enriched_tasks,
    enriched_industry := r.enriched_industry,
    enriched_contract_type := r.enriched_contract_type,
    country := r.country,
    locality := r.address_addresslocality }

/-- Step 2 of preprocess: map each non-empty stripped enriched title to the
indices of the raw records carrying it, in first-seen order. -/
def title_groups (raws : List RawRec) : List (String × List Nat) :=
  raws.enum.foldl
    (fun m p =>
      let t := pyStrip p.2.enriched_job_title
      if t = "" then m else ginsert m t p.1) []

/-- Step 4 of preprocess, inner loop: emit one metadata row and one embedding
row per record index of one title group. -/
def expandGroup (raws : List RawRec) (encode : String → List ℚ) (t : String)
    (idxs : List Nat) (acc : List MetaRec × List (List ℚ)) :
    List MetaRec × List (List ℚ) :=
  idxs.foldl
    (fun a i =>
      let r := pyGetD raws i {}
      (a.1 ++ [mkMeta r], a.2 ++ [encode t])) acc

/-- Step 4 of preprocess, outer loop over unique titles in first-seen order. -/
def expandRows (raws : List RawRec) (encode : String → List ℚ)
    (groups : List (String × List Nat)) : List MetaRec × List (List ℚ) :=
  groups.foldl (fun a g => expandGroup raws encode g.1 g.2 a) ([], [])

structure PreprocessOut where
  metadata : List MetaRec
  embeddings_matrix : List (List ℚ)
  index : FaissIndexData
  unique_titles : List String
deriving DecidableEq

/-- Embedding of VacancyStore.preprocess: group raw records by non-empty
stripped enriched title, embed each unique title once, expand to per-record
rows, and add the whole matrix to a fresh flat inner-product index. -/
def preprocess (raws : List RawRec) (encode : String → List ℚ) : PreprocessOut :=
  let groups := title_groups raws
  let md_em := expandRows raws encode groups
  { metadata := md_em.1,
    embeddings_matrix := md_em.2,
    index := { dim := (md_em.2.headD []).length, vecs := md_em.2 },
    unique_titles := groups.map Prod.fst }

/-! ### Counting and invariant lemmas for preprocess -/

def sizeSum {κ β : Type} (m : List (κ × List β)) : Nat :=
  (m.map (fun g => g.2.length)).sum

theorem sizeSum_ginsert {κ β : Type} [DecidableEq κ]
    (m : List (κ × List β)) (t : κ) (v : β) :
    sizeSum (ginsert m t v) = sizeSum m + 1 := by
  induction m with
  | nil => simp [ginsert, sizeSum]
  | cons g rest ih =>
    obtain ⟨k, vs⟩ := g
    by_cases h : k = t
    · simp [ginsert, h, sizeSum]
      omega
    · simp [ginsert, h, sizeSum] at ih ⊢
      omega

theorem title_groups_core_size (raws : List RawRec) :
    ∀ (l : List (Nat × RawRec)) (m : List (String × List Nat)),
      sizeSum (l.foldl
        (fun m p =>
          let t := pyStrip p.2.enriched_job_title
          if t = "" then m else ginsert m t p.1) m)
      = sizeSum m + l.countP (fun p => !(pyStrip p.2.enriched_job_title == "")) := by
  intro l
  induction l with
  | nil => intro m; simp
  | cons p rest ih =>
    intro m
    by_cases h : pyStrip p.2.enriched_job_title = ""
    · simp [List.foldl_cons, h, ih, List.countP_cons]
    · simp [List.foldl_cons, h, ih, List.countP_cons, sizeSum_ginsert]
      omega

theorem countP_enum (raws : List RawRec) :
    ∀ (n : Nat),
      (raws.enumFrom n).countP (fun p => !(pyStrip p.2.enriched_job_title == ""))
      = raws.countP (fun r => !(pyStrip r.enriched_job_title == "")) := by
  induction raws with
  | nil => intro n; simp
  | cons r rest ih =>
    intro n
    simp [List.enumFrom, List.countP_cons, ih]

theorem title_groups_size (raws : List RawRec) :
    sizeSum (title_groups raws)
      = raws.countP (fun r => !(pyStrip r.enriched_job_title == "")) := by
  have h := title_groups_core_size raws raws.enum []
  simpa [title_groups, sizeSum, List.enum, countP_enum raws 0] using h

theorem expandGroup_length (raws : List RawRec) (encode : String → List ℚ)
    (t : String) :
    ∀ (idxs : List Nat) (acc : List MetaRec × List (List ℚ)),
      (expandGroup raws encode t idxs acc).1.length = acc.1.length + idxs.length ∧
      (expandGroup raws encode t idxs acc).2.length = acc.2.length + idxs.length := by
  intro idxs
  induction idxs with
  | nil => intro acc; simp [expandGroup]
  | cons i rest ih =>
    intro acc
    have h := ih (acc.1 ++ [mkMeta (pyGetD raws i {})], acc.2 ++ [encode t])
    simp [expandGroup] at h ⊢
    omega

theorem expandRows_length (raws : List RawRec) (encode : String → List ℚ) :
    ∀ (groups : List (String × List Nat)) (acc : List MetaRec × List (List ℚ)),
      (groups.foldl (fun a g => expandGroup raws encode g.1 g.2 a) acc).1.length
        = acc.1.length + sizeSum groups ∧
      (groups.foldl (fun a g => expandGroup raws encode g.1 g.2 a) acc).2.length
        = acc.2.length + sizeSum groups := by
  intro groups
  induction groups with
  | nil => intro acc; simp [sizeSum]
  | cons g rest ih =>
    intro acc
    have h1 := expandGroup_length raws encode g.1 g.2 acc
    have h2 := ih (expandGroup raws encode g.1 g.2 acc)
    simp [sizeSum, List.foldl_cons] at h2 ⊢
    omega

/-- C6: after a successful build, the metadata table, the embedding matrix and
the index are row-aligned. -/
theorem preprocess_row_alignment (raws : List RawRec) (encode : String → List ℚ) :
    (preprocess raws encode).metadata.length
      = (preprocess raws encode).embeddings_matrix.length ∧
    (preprocess raws encode).embeddings_matrix.length
      = (preprocess raws encode).index.ntotal := by
  have h := expandRows_length raws encode (title_groups raws) ([], [])
  simp [preprocess, expandRows, FaissIndexData.ntotal] at h ⊢
  omega

theorem ginsert_forall {κ β : Type} [DecidableEq κ]
    (Q : κ → Prop) (R : κ → β → Prop)
    (m : List (κ × List β)) (t : κ) (v : β)
    (hm : ∀ g ∈ m, Q g.1 ∧ ∀ b ∈ g.2, R g.1 b)
    (ht : Q t) (hv : R t v) :
    ∀ g ∈ ginsert m t v, Q g.1 ∧ ∀ b ∈ g.2, R g.1 b := by
  induction m with
  | nil =>
    intro g hg
    simp [ginsert] at hg
    subst hg
    exact ⟨ht, by simpa using hv⟩
  | cons p rest ih =>
    obtain ⟨k, vs⟩ := p
    intro g hg
    by_cases h : k = t
    · subst h
      simp [ginsert] at hg
      rcases hg with hg | hg
      · subst hg
        refine ⟨(hm (k, vs) (by simp)).1, ?_⟩
        intro b hb
        simp at hb
        rcases hb with hb | hb
        · exact (hm (k, vs) (by simp)).2 b hb
        · subst hb; exact hv
      · exact hm g (by simp [hg])
    · simp [ginsert, h] at hg
      rcases hg with hg | hg
      · subst hg; exact hm (k, vs) (by simp)
      · exact ih (fun g' hg' => hm g' (by simp [hg'])) g hg

theorem mem_enumFrom_getElem? {α : Type} (l : List α) :
    ∀ (n i : Nat) (r : α), (i, r) ∈ l.enumFrom n → n ≤ i ∧ l[i - n]? = some r := by
  induction l with
  | nil => intro n i r h; simp [List.enumFrom] at h
  | cons x xs ih =>
    intro n i r h
    simp only [List.enumFrom, List.mem_cons] at h
    rcases h with h | h
    · injection h with h1 h2
      subst h1; subst h2
      simp
    · obtain ⟨hle, hget⟩ := ih (n + 1) i r h
      refine ⟨by omega, ?_⟩
      have : i - n = (i - (n + 1)) + 1 := by omega
      rw [this]
      simpa using hget


/-- Invariant of the title grouping: every group key is a non-empty stripped
title and every member index points at a raw record whose stripped enriched
title equals the key. -/
theorem title_groups_forall (raws : List RawRec) :
    ∀ g ∈ title_groups raws,
      g.1 ≠ "" ∧ ∀ i ∈ g.2, pyStrip ((pyGetD raws i {}).enriched_job_title) = g.1 := by
  have core :
      ∀ (l : List (Nat × RawRec)) (m : List (String × List Nat)),
        (∀ p ∈ l, raws[p.1]? = some p.2) →
        (∀ g ∈ m, g.1 ≠ "" ∧
            ∀ i ∈ g.2, pyStrip ((pyGetD raws i {}).enriched_job_title) = g.1) →
        ∀ g ∈ l.foldl
          (fun m p =>
            let t := pyStrip p.2.enriched_job_title
            if t = "" then m else ginsert m t p.1) m,
          g.1 ≠ "" ∧
            ∀ i ∈ g.2, pyStrip ((pyGetD raws i {}).enriched_job_title) = g.1 := by
    intro l
    induction l with
    | nil => intro m _ hm; simpa using hm
    | cons p rest ih =>
      intro m hl hm
      simp only [List.foldl_cons]
      by_cases h : pyStrip p.2.enriched_job_title = ""
      · simp only [h, if_pos rfl]
        exact ih m (fun q hq => hl q (by simp [hq])) hm
      · simp only [if_neg h]
        refine ih _ (fun q hq => hl q (by simp [hq])) ?_
        refine ginsert_forall (fun t => t ≠ "")
          (fun t i => pyStrip ((pyGetD raws i {}).enriched_job_title) = t)
          m _ _ hm h ?_
        have hp := hl p (by simp)
        simp [pyGetD, hp]
  intro g hg
  refine core raws.enum [] ?_ (by simp) g hg
  intro p hp
  have h := mem_enumFrom_getElem? raws 0 p.1 p.2 (by simpa [List.enum] using hp)
  simpa using h.2

theorem expandGroup_forall (raws : List RawRec) (encode : String → List ℚ)
    (t : String) (P : MetaRec → Prop) :
    ∀ (idxs : List Nat) (acc : List MetaRec × List (List ℚ)),
      (∀ x ∈ acc.1, P x) →
      (∀ i ∈ idxs, P (mkMeta (pyGetD raws i {}))) →
      ∀ x ∈ (expandGroup raws encode t idxs acc).1, P x := by
  intro idxs
  induction idxs with
  | nil => intro acc hacc _; simpa [expandGroup] using hacc
  | cons i rest ih =>
    intro acc hacc hidx
    simp only [expandGroup, List.foldl_cons]
    refine ih (acc.1 ++ [mkMeta (pyGetD raws i {})], acc.2 ++ [encode t]) ?_ ?_
    · intro x hx
      simp at hx
      rcases hx with hx | hx
      · exact hacc x hx
      · subst hx; exact hidx i (by simp)
    · intro j hj; exact hidx j (by simp [hj])

theorem expandRows_forall (raws : List RawRec) (encode : String → List ℚ)
    (P : MetaRec → Prop) :
    ∀ (groups : List (String × List Nat)) (acc : List MetaRec × List (List ℚ)),
      (∀ x ∈ acc.1, P x) →
      (∀ g ∈ groups, ∀ i ∈ g.2, P (mkMeta (pyGetD raws i {}))) →
      ∀ x ∈ (groups.foldl (fun a g => expandGroup raws encode g.1 g.2 a) acc).1, P x := by
  intro groups
  induction groups with
  | nil => intro acc hacc _; simpa using hacc
  | cons g rest ih =>
    intro acc hacc hgr
    simp only [List.foldl_cons]
    refine ih (expandGroup raws encode g.1 g.2 acc) ?_ ?_
    · exact expandGroup_forall raws encode g.1 P g.2 acc hacc
        (fun i hi => hgr g (by simp) i hi)
    · intro g' hg' i hi; exact hgr g' (by simp [hg']) i hi

/-- A raw record whose enriched title is whitespace-only. -/
def blankRaw : RawRec := { enriched_job_title := "  " }

/-- C10: preprocess silently omits every raw record whose enriched_job_title
is empty or whitespace-only: every stored metadata record has a non-empty
(and non-whitespace-only) enriched_job_title, the stored row count equals the
number of raw records with a non-blank stripped title and never exceeds the
raw record count, and on a concrete whitespace-only-title input the stored
count is strictly smaller than the raw count while the build still completes. -/
theorem preprocess_drops_blank_titles :
    (∀ (raws : List RawRec) (encode : String → List ℚ),
      (∀ m ∈ (preprocess raws encode).metadata,
        pyStrip m.enriched_job_title ≠ "" ∧ m.enriched_job_title ≠ "") ∧
      (preprocess raws encode).metadata.length
        = raws.countP (fun r => !(pyStrip r.enriched_job_title == "")) ∧
      (preprocess raws encode).metadata.length ≤ raws.length) ∧
    (preprocess [blankRaw] (fun _ => [1])).metadata.length = 0 ∧
    ([blankRaw] : List RawRec).length = 1 := by
  refine ⟨?_, by decide, rfl⟩
  intro raws encode
  refine ⟨?_, ?_, ?_⟩
  · have hforall := expandRows_forall raws encode
      (fun m => pyStrip m.enriched_job_title ≠ "")
      (title_groups raws) ([], []) (by simp)
      (fun g hg i hi => by
        have h := (title_groups_forall raws g hg).2 i hi
        have h1 := (title_groups_forall raws g hg).1
        show pyStrip (mkMeta (pyGetD raws i {})).enriched_job_title ≠ ""
        have : (mkMeta (pyGetD raws i {})).enriched_job_title
            = (pyGetD raws i {}).enriched_job_title := rfl
        rw [this, h]
        exact h1)
    intro m hm
    have hstrip : pyStrip m.enriched_job_title ≠ "" := hforall m hm
    refine ⟨hstrip, ?_⟩
    intro he
    apply hstrip
    rw [he]
    rfl
  · have h := expandRows_length raws encode (title_groups raws) ([], [])
    have hsz := title_groups_size raws
    simp [preprocess, expandRows] at h ⊢
    omega
  · have h := expandRows_length raws encode (title_groups raws) ([], [])
    have hsz := title_groups_size raws
    have hle := List.countP_le_length
      (p := fun r => !(pyStrip r.enriched_job_title == "")) (l := raws)
    simp [preprocess, expandRows] at h ⊢
    omega

/-! ## Phase 4 data model (src/layer2/models/schemas.py) -/

inductive RetrievalChannel where
  | title
  | skills
  | dual
deriving DecidableEq

structure RetrievalHit where
  vacancy_id : String
  vacancy_title : String
  enriched_job_title : String
  cosine_score : ℚ
  channel : RetrievalChannel
  query_used : String := ""
deriving DecidableEq

structure ScoringDetail where
  vacancy_id : String
  enriched_job_title : String
  role_need_id : String
  task_score : ℚ
  domain_score : ℚ
  seniority_score : ℚ
  composite_score : ℚ
  rationale : String := ""
deriving DecidableEq

/-! ## Rerank gate (src/layer2/pipeline/phase4_match.py, _rerank lines 173-246) -/

/-- One entry of the vacancy_infos batch sent to the scoring collaborator. -/
structure VacInfo where
  vacancy_id : String := ""
  enriched_job_title : String := ""
  enriched_skills : String := ""
  enriched_tasks : String := ""
  description_preview : String := ""
deriving DecidableEq

/-- One scoring object returned by the external scoring collaborator. -/
structure ScoreData where
  task_score : ℚ := 0
  domain_score : ℚ := 0
  seniority_score : ℚ := 0
  rationale : String := ""
deriving DecidableEq

/-- The fixed weighted sum computed in _rerank line 232. -/
def composite (s : ScoreData) : ℚ :=
  0.40 * s.task_score + 0.40 * s.domain_score + 0.20 * s.seniority_score

def mkScoringDetail (needId : String) (vi : VacInfo) (s : ScoreData) :
    ScoringDetail :=
  { vacancy_id := vi.vacancy_id,
    enriched_job_title := vi.enriched_job_title,
    role_need_id := needId,
    task_score := s.task_score,
    domain_score := s.domain_score,
    seniority_score := s.seniority_score,
    composite_score := composite s,
    rationale := s.rationale }

/-- VacancyStore.get_record_by_id: linear scan for the first record with the
given identifier. -/
def get_record_by_id (records : List MetaRec) (identifier : String) :
    Option MetaRec :=
  records.find? (fun r => r.identifier == identifier)

/-- Batching in chunks of 5 (`hits[batch_start : batch_start + batch_size]`). -/
def chunk {α : Type} : List α → List (List α)
  | [] => []
  | a :: rest => (a :: rest.take 4) :: chunk (rest.drop 4)
termination_by l => l.length
decreasing_by simp [List.length_drop]; omega

/-- The vacancy_infos list built for one batch: hits whose vacancy id resolves
in the store, in batch order (missing records are skipped by the `if rec:`
guard). -/
def batchInfos (records : List MetaRec) (batch : List RetrievalHit) :
    List VacInfo :=
  batch.filterMap (fun h =>
    (get_record_by_id records h.vacancy_id).map (fun r =>
      { vacancy_id := h.vacancy_id,
        enriched_job_title := r.enriched_job_title,
        enriched_skills := r.enriched_skills,
        enriched_tasks := r.enriched_tasks,
        description_preview := pyTakeStr r.description 300 }))

/-- The enumerate-with-break loop over the collaborator's result list
(lines 225-244): stop at the first index beyond vacancy_infos, otherwise pair
result[i] with vacancy_infos[i], compute the composite and keep the
ScoringDetail only when it reaches RERANK_THRESHOLD. -/
def processScores (needId : String) (infos : List VacInfo) :
    List ScoreData → Nat → List ScoringDetail
  | [], _ => []
  | s :: rest, i =>
    if i < infos.length then
      let vi := pyGetD infos i {}
      if RERANK_THRESHOLD ≤ composite s then
        mkScoringDetail needId vi s :: processScores needId infos rest (i + 1)
      else processScores needId infos rest (i + 1)
    else []

/-- Embedding of _rerank: empty hit lists short-circuit, otherwise each batch
of 5 hits is resolved to vacancy_infos, sent to the scoring collaborator
(modelled as the function parameter `scorer`), and the scored survivors are
appended across batches. -/
def rerank (records : List MetaRec) (needId : String) (hits : List RetrievalHit)
    (scorer : List VacInfo → List ScoreData) : List ScoringDetail :=
  if hits.isEmpty then []
  else
    (chunk hits).foldl
      (fun scored batch =>
        let infos := batchInfos records batch
        if infos.isEmpty then scored
        else scored ++ processScores needId infos (scorer infos) 0) []

/-! ### Rerank normal form -/

theorem processScores_nil (needId : String) (result : List ScoreData) (i : Nat) :
    processScores needId [] result i = [] := by
  cases result <;> simp [processScores]

theorem processScores_eq_zip (needId : String) (infos : List VacInfo) :
    ∀ (result : List ScoreData) (i : Nat), i ≤ infos.length →
      processScores needId infos result i
        = ((result.zip (infos.drop i)).filter
            (fun p => decide (RERANK_THRESHOLD ≤ composite p.1))).map
            (fun p => mkScoringDetail needId p.2 p.1) := by
  intro result
  induction result with
  | nil => intro i _; simp [processScores]
  | cons s rest ih =>
    intro i hi
    rcases lt_or_eq_of_le hi with hlt | heq
    · have hdrop : infos.drop i = infos[i] :: infos.drop (i + 1) :=
        List.drop_eq_getElem_cons hlt
      have hget : pyGetD infos i {} = infos[i] := by
        simp [pyGetD, List.getElem?_eq_getElem hlt]
      have hz : (s :: rest).zip (infos.drop i)
          = (s, infos[i]) :: rest.zip (infos.drop (i + 1)) := by
        rw [hdrop, List.zip_cons_cons]
      by_cases hgate : RERANK_THRESHOLD ≤ composite s
      · rw [hz, List.filter_cons_of_pos, List.map_cons, ← ih (i + 1) hlt]
        · simp [processScores, hlt, hgate, hget]
        · simpa using hgate
      · rw [hz, List.filter_cons_of_neg, ← ih (i + 1) hlt]
        · simp [processScores, hlt, hgate, hget]
        · simpa using hgate
    · subst heq
      simp [processScores, List.drop_length]

theorem foldl_append_join {α β : Type} (f : β → List α) :
    ∀ (l : List β) (init : List α),
      l.foldl (fun acc b => acc ++ f b) init = init ++ (l.map f).join := by
  intro l
  induction l with
  | nil => intro init; simp
  | cons b rest ih => intro init; simp [ih]

theorem rerank_eq_join (records : List MetaRec) (needId : String)
    (hits : List RetrievalHit) (scorer : List VacInfo → List ScoreData) :
    rerank records needId hits scorer
      = ((chunk hits).map (fun batch =>
            processScores needId (batchInfos records batch)
              (scorer (batchInfos records batch)) 0)).join := by
  by_cases h : hits.isEmpty
  · have : hits = [] := by
      cases hits with
      | nil => rfl
      | cons a rest => simp at h
    subst this
    simp [rerank, chunk]
  · have hstep :
        (fun (scored : List ScoringDetail) (batch : List RetrievalHit) =>
          let infos := batchInfos records batch
          if infos.isEmpty then scored
          else scored ++ processScores needId infos (scorer infos) 0)
        = (fun scored batch =>
            scored ++ processScores needId (batchInfos records batch)
              (scorer (batchInfos records batch)) 0) := by
      funext scored batch
      by_cases hinf : (batchInfos records batch).isEmpty
      · have : batchInfos records batch = [] := by
          cases hb : batchInfos records batch with
          | nil => rfl
          | cons a rest => rw [hb] at hinf; simp at hinf
        simp [hinf, this, processScores_nil]
      · simp [hinf]
    rw [rerank, if_neg h, hstep, foldl_append_join]
    simp

theorem getElem?_both_mem_zip {α β : Type} :
    ∀ (l₁ : List α) (l₂ : List β) (i : Nat) (a : α) (b : β),
      l₁[i]? = some a → l₂[i]? = some b → (a, b) ∈ l₁.zip l₂ := by
  intro l₁
  induction l₁ with
  | nil => intro l₂ i a b h₁ _; simp at h₁
  | cons x xs ih =>
    intro l₂ i a b h₁ h₂
    cases l₂ with
    | nil => simp at h₂
    | cons y ys =>
      cases i with
      | zero =>
        simp at h₁ h₂
        subst h₁; subst h₂
        simp [List.zip_cons_cons]
      | succ n =>
        simp at h₁ h₂
        exact List.mem_cons_of_mem _ (ih ys n a b h₁ h₂)

theorem mem_zip_getElem? {α β : Type} :
    ∀ (l₁ : List α) (l₂ : List β) (a : α) (b : β), (a, b) ∈ l₁.zip l₂ →
      ∃ i : Nat, l₁[i]? = some a ∧ l₂[i]? = some b := by
  intro l₁
  induction l₁ with
  | nil => intro l₂ a b h; simp at h
  | cons x xs ih =>
    intro l₂ a b h
    cases l₂ with
    | nil => simp at h
    | cons y ys =>
      rw [List.zip_cons_cons, List.mem_cons] at h
      rcases h with h | h
      · injection h with h1 h2
        exact ⟨0, by simp [h1], by simp [h2]⟩
      · obtain ⟨i, hi₁, hi₂⟩ := ih ys a b h
        exact ⟨i + 1, by simpa using hi₁, by simpa using hi₂⟩

theorem zip_take_self {α β : Type} :
    ∀ (l₁ : List α) (l₂ : List β), l₁.zip l₂ = l₁.zip (l₂.take l₁.length) := by
  intro l₁
  induction l₁ with
  | nil => intro l₂; simp
  | cons x xs ih =>
    intro l₂
    cases l₂ with
    | nil => simp
    | cons y ys => simp [List.zip_cons_cons, ih ys]

/-- C3: every ScoringDetail produced by rerank has composite_score equal to
the fixed weighted sum 0.40 task + 0.40 domain + 0.20 seniority and reaches
RERANK_THRESHOLD (3.0); conversely every batch position whose composite
reaches the threshold contributes its ScoringDetail, so retention is exactly
the composite gate. -/
theorem rerank_composite_gate (records : List MetaRec) (needId : String)
    (hits : List RetrievalHit) (scorer : List VacInfo → List ScoreData) :
    (∀ sd ∈ rerank records needId hits scorer,
        sd.composite_score
          = 0.40 * sd.task_score + 0.40 * sd.domain_score
            + 0.20 * sd.seniority_score ∧
        RERANK_THRESHOLD ≤ sd.composite_score) ∧
    (∀ batch ∈ chunk hits, ∀ (i : Nat) (s : ScoreData) (vi : VacInfo),
        (scorer (batchInfos records batch))[i]? = some s →
        (batchInfos records batch)[i]? = some vi →
        RERANK_THRESHOLD ≤ composite s →
        mkScoringDetail needId vi s ∈ rerank records needId hits scorer) := by
  constructor
  · intro sd hsd
    rw [rerank_eq_join, List.mem_join] at hsd
    obtain ⟨l, hl, hsdl⟩ := hsd
    rw [List.mem_map] at hl
    obtain ⟨batch, hbatch, rfl⟩ := hl
    rw [processScores_eq_zip _ _ _ 0 (Nat.zero_le _), List.mem_map] at hsdl
    obtain ⟨p, hp, rfl⟩ := hsdl
    rw [List.mem_filter] at hp
    exact ⟨rfl, of_decide_eq_true hp.2⟩
  · intro batch hbatch i s vi hs hvi hgate
    rw [rerank_eq_join, List.mem_join]
    refine ⟨processScores needId (batchInfos records batch)
      (scorer (batchInfos records batch)) 0, List.mem_map.mpr ⟨batch, hbatch, rfl⟩, ?_⟩
    rw [processScores_eq_zip _ _ _ 0 (Nat.zero_le _)]
    refine List.mem_map.mpr ⟨(s, vi), ?_, rfl⟩
    rw [List.mem_filter]
    refine ⟨?_, decide_eq_true hgate⟩
    simpa using getElem?_both_mem_zip _ _ i s vi hs hvi

def recNurse : MetaRec := { identifier := "v1", title := "Nurse", enriched_job_title := "Nurse" }

def hitNurse : RetrievalHit :=
  { vacancy_id := "v1", vacancy_title := "Nurse", enriched_job_title := "Nurse",
    cosine_score := 9/10, channel := RetrievalChannel.title, query_used := "Nurse" }

def viNurse : VacInfo := { vacancy_id := "v1", enriched_job_title := "Nurse" }

def sGood : ScoreData :=
  { task_score := 5, domain_score := 4, seniority_score := 3, rationale := "fits" }

def scorerConst : List VacInfo → List ScoreData := fun _ => [sGood]

/-- C3 witness: a concrete one-hit store where the collaborator returns
(5, 4, 3), composite 4.2 >= 3.0, and the ScoringDetail is retained. -/
theorem rerank_composite_gate_witness :
    mkScoringDetail "need-1" viNurse sGood ∈
      rerank [recNurse] "need-1" [hitNurse] scorerConst := by
  have hb : [hitNurse] ∈ chunk [hitNurse] := by
    simp [chunk]
  refine (rerank_composite_gate [recNurse] "need-1" [hitNurse] scorerConst).2
    [hitNurse] hb 0 sGood viNurse rfl ?_ ?_
  · show (batchInfos [recNurse] [hitNurse])[0]? = some viNurse
    decide
  · show RERANK_THRESHOLD ≤ composite sGood
    norm_num [RERANK_THRESHOLD, composite, sGood]

/-- C8: when the scoring collaborator returns fewer score objects than the
batch has vacancies, only the first len(result) vacancy_infos entries are
considered: the computation coincides with the one on the truncated info
list, every produced ScoringDetail comes from an index below len(result),
and the excess vacancies yield nothing (silently, no error value exists). -/
theorem processScores_short_result (needId : String) (infos : List VacInfo)
    (result : List ScoreData) (h : result.length < infos.length) :
    processScores needId infos result 0
      = processScores needId (infos.take result.length) result 0 ∧
    ∀ sd ∈ processScores needId infos result 0,
      ∃ i, i < result.length ∧ ∃ s vi, result[i]? = some s ∧ infos[i]? = some vi ∧
        sd = mkScoringDetail needId vi s := by
  constructor
  · rw [processScores_eq_zip _ _ _ 0 (Nat.zero_le _),
      processScores_eq_zip _ _ _ 0 (Nat.zero_le _)]
    rw [List.drop_zero, List.drop_zero, zip_take_self result infos]
  · intro sd hsd
    rw [processScores_eq_zip _ _ _ 0 (Nat.zero_le _), List.mem_map] at hsd
    obtain ⟨p, hp, rfl⟩ := hsd
    rw [List.mem_filter] at hp
    obtain ⟨i, hi₁, hi₂⟩ := mem_zip_getElem? result _ p.1 p.2 (by simpa using hp.1)
    refine ⟨i, ?_, p.1, p.2, hi₁, by simpa using hi₂, rfl⟩
    by_contra hge
    rw [List.getElem?_eq_none (by omega)] at hi₁
    exact Option.noConfusion hi₁

def viA : VacInfo := { vacancy_id := "a" }

def viB : VacInfo := { vacancy_id := "b" }

/-- C8 witness: a batch of two vacancies scored by a collaborator that
returns a single score object; the claim instance follows from the theorem
at this input. -/
theorem processScores_short_result_witness :
    ([sGood].length < [viA, viB].length) ∧
    (processScores "need-2" [viA, viB] [sGood] 0
        = processScores "need-2" ([viA, viB].take [sGood].length) [sGood] 0 ∧
      ∀ sd ∈ processScores "need-2" [viA, viB] [sGood] 0,
        ∃ i, i < [sGood].length ∧ ∃ s vi, [sGood][i]? = some s ∧
          [viA, viB][i]? = some vi ∧ sd = mkScoringDetail "need-2" vi s) :=
  ⟨by decide, processScores_short_result "need-2" [viA, viB] [sGood] (by decide)⟩

/-! ## Clustering (src/layer2/pipeline/phase4_match.py, _cluster_into_roles) -/

inductive RoleCategory where
  | clinical | administrative | analytical | compliance_governance
  | operational | training_change_mgmt | supervisory
deriving DecidableEq

inductive InteractionPattern where
  | primary_daily_user | periodic_reviewer | exception_handler
  | oversight_approver | configuration_owner
deriving DecidableEq

inductive SenioritySignal where
  | entry_level | experienced | senior_specialist | leadership
deriving DecidableEq

structure RoleNeed where
  id : String
  description : String := ""
  category : RoleCategory := RoleCategory.operational
  interaction_pattern : InteractionPattern := InteractionPattern.primary_daily_user
  seniority_signal : SenioritySignal := SenioritySignal.experienced
  derived_job_titles : List String := []
  derived_skill_keywords : List String := []
deriving DecidableEq

structure RetrievalResult where
  role_need_id : String
  hits : List RetrievalHit := []
  scored : List ScoringDetail := []
deriving DecidableEq

structure RecommendedRole where
  canonical_title : String
  alternative_titles : List String := []
  mapped_role_needs : List String := []
  representative_vacancy_ids : List String := []
  category : RoleCategory := RoleCategory.operational
  interaction_pattern : InteractionPattern := InteractionPattern.primary_daily_user
  seniority : SenioritySignal := SenioritySignal.experienced
  confidence : ℚ := 0
  retrieval_channel : RetrievalChannel := RetrievalChannel.title
  justification : String := ""
deriving DecidableEq

structure ClusterInfo where
  cluster_id : Nat
  canonical_title : String
  member_titles : List String := []
  member_vacancy_ids : List String := []
  centroid_distance : ℚ := 0
deriving DecidableEq

/-- The per-title aggregation built by the four defaultdicts of lines 262-276
(vacancy_need_map, vacancy_ids_map, vacancy_scores, vacancy_channels), fused
into one record keyed by enriched title.  All four dicts are touched for the
same keys in the same first-seen order. -/
structure TitleAgg where
  need_ids : List String := []
  vacancy_ids : List String := []
  scores : List ℚ := []
  channels : List RetrievalChannel := []
deriving DecidableEq

/-- defaultdict access-and-update: read the existing aggregate (or a fresh
empty one) and write back the modified value. -/
def gupd (m : List (String × TitleAgg)) (t : String) (f : TitleAgg → TitleAgg) :
    List (String × TitleAgg) :=
  match alookup m t with
  | some a => aupdate m t (f a)
  | none => aupdate m t (f {})

/-- Python set.add on the channels set (membership is all that is ever used). -/
def addChannel (cs : List RetrievalChannel) (c : RetrievalChannel) :
    List RetrievalChannel :=
  if c ∈ cs then cs else cs ++ [c]

/-- Lines 267-276: for every ScoringDetail of every retrieval result, append
its need id, vacancy id and composite score under its enriched title, and add
the channels of the hits with a matching vacancy id. -/
def collectTitleData (results : List RetrievalResult) :
    List (String × TitleAgg) :=
  results.foldl
    (fun m rr =>
      rr.scored.foldl
        (fun m sd =>
          let t := sd.enriched_job_title
          let m := gupd m t (fun a =>
            { a with need_ids := a.need_ids ++ [sd.role_need_id],
                     vacancy_ids := a.vacancy_ids ++ [sd.vacancy_id],
                     scores := a.scores ++ [sd.composite_score] })
          rr.hits.foldl
            (fun m hit =>
              if hit.vacancy_id = sd.vacancy_id then
                gupd m t (fun a => { a with channels := addChannel a.channels hit.channel })
              else m) m) m) []

inductive PyErr where
  | nameError : String → PyErr
deriving DecidableEq

/-- Embedding of _cluster_into_roles (lines 253-407).  The function collects
the per-title aggregates and branches on the number of distinct surviving
titles.  Both non-empty branches construct a RecommendedRole whose
`seniority=` argument evaluates the module-level name `SenioritySignal`
(lines 307 and 386); phase4_match.py never imports that name (imports are
lines 13-27), so Python raises NameError there before any role or cluster is
returned.  The numeric steps that precede it in the multi-title branch
(centroid mean, normalisation, argmin at lines 347-351) cannot raise, so the
first iteration of the cluster loop reaches line 386 whenever at least one
cluster group exists.  The external encoder and
sklearn.AgglomerativeClustering.fit_predict are the oracles `encode` and
`fit_predict`. -/
def cluster_into_roles (role_needs : List RoleNeed)
    (results : List RetrievalResult) (encode : String → List ℚ)
    (fit_predict : List (List ℚ) → List Nat) :
    Except PyErr (List RecommendedRole × List ClusterInfo) :=
  let data := collectTitleData results
  let unique_titles := data.map Prod.fst
  if unique_titles.isEmpty then
    -- line 280-282: no surviving titles, empty roles and clusters
    .ok ([], [])
  else if unique_titles.length = 1 then
    -- lines 284-320: the RecommendedRole construction at line 307 evaluates
    -- the unbound name SenioritySignal
    .error (.nameError "SenioritySignal")
  else
    let title_embeddings := unique_titles.map encode
    let labels := fit_predict title_embeddings
    -- lines 335-337: group title indices by cluster label
    let cluster_groups := labels.enum.foldl (fun m p => ginsert m p.2 p.1) []
    if cluster_groups.isEmpty then
      -- degenerate: no groups means the role loop never runs; line 405 sorts
      -- the empty roles list and line 407 returns it
      .ok ([], [])
    else
      -- lines 342-393: the first loop iteration reaches the RecommendedRole
      -- construction at line 386, which evaluates the unbound name
      .error (.nameError "SenioritySignal")

theorem ginsert_ne_nil {κ β : Type} [DecidableEq κ]
    (m : List (κ × List β)) (k : κ) (v : β) : ginsert m k v ≠ [] := by
  cases m with
  | nil => simp [ginsert]
  | cons p rest =>
    obtain ⟨pk, pv⟩ := p
    by_cases h : pk = k <;> simp [ginsert, h]

theorem foldl_ginsert_ne_nil {κ β : Type} [DecidableEq κ] :
    ∀ (L : List (β × κ)) (m : List (κ × List β)),
      m ≠ [] ∨ L ≠ [] → L.foldl (fun m p => ginsert m p.2 p.1) m ≠ [] := by
  intro L
  induction L with
  | nil =>
    intro m h
    rcases h with h | h
    · simpa using h
    · simp at h
  | cons p rest ih =>
    intro m _
    simp only [List.foldl_cons]
    exact ih (ginsert m p.2 p.1) (Or.inl (ginsert_ne_nil m p.2 p.1))

/-- C4: when exactly one distinct enriched title survives re-ranking,
_cluster_into_roles does not return the single role the claim describes: the
single-title branch evaluates the unbound module name SenioritySignal at line
307 and raises NameError, for every input with one surviving title. -/
theorem cluster_single_title_name_error (role_needs : List RoleNeed)
    (results : List RetrievalResult) (encode : String → List ℚ)
    (fit_predict : List (List ℚ) → List Nat)
    (h : ((collectTitleData results).map Prod.fst).length = 1) :
    cluster_into_roles role_needs results encode fit_predict
      = .error (.nameError "SenioritySignal") := by
  have h0 : ((collectTitleData results).map Prod.fst).isEmpty = false := by
    cases hm : (collectTitleData results).map Prod.fst with
    | nil => rw [hm] at h; simp at h
    | cons a rest => rfl
  simp [cluster_into_roles, h0, h]

/-- One surviving ScoringDetail with enriched title Nurse. -/
def sdNurse : ScoringDetail :=
  { vacancy_id := "v1", enriched_job_title := "Nurse", role_need_id := "n1",
    task_score := 5, domain_score := 5, seniority_score := 5,
    composite_score := 5 }

def rrSingle : RetrievalResult := { role_need_id := "n1", scored := [sdNurse] }

/-- C4 witness: a concrete run with exactly one surviving title raises the
modelled NameError instead of returning a role. -/
theorem cluster_single_title_name_error_witness :
    cluster_into_roles [] [rrSingle] (fun _ => []) (fun _ => [])
      = .error (.nameError "SenioritySignal") :=
  cluster_single_title_name_error [] [rrSingle] (fun _ => []) (fun _ => [])
    (by decide)

/-- C5: with two or more distinct surviving titles, _cluster_into_roles never
produces any cluster: as soon as the clustering oracle returns a non-empty
labelling, the first iteration of the per-cluster loop evaluates the unbound
name SenioritySignal at line 386 and raises NameError, so no cluster with a
canonical title is ever returned. -/
theorem cluster_multi_title_name_error (role_needs : List RoleNeed)
    (results : List RetrievalResult) (encode : String → List ℚ)
    (fit_predict : List (List ℚ) → List Nat)
    (h2 : 2 ≤ ((collectTitleData results).map Prod.fst).length)
    (hfp : fit_predict (((collectTitleData results).map Prod.fst).map encode) ≠ []) :
    cluster_into_roles role_needs results encode fit_predict
      = .error (.nameError "SenioritySignal") := by
  have h0 : ((collectTitleData results).map Prod.fst).isEmpty = false := by
    cases hm : (collectTitleData results).map Prod.fst with
    | nil => rw [hm] at h2; simp at h2
    | cons a rest => rfl
  have h1 : ¬ ((collectTitleData results).map Prod.fst).length = 1 := by omega
  have hgr : (fit_predict (((collectTitleData results).map Prod.fst).map encode)).enum.foldl
      (fun m p => ginsert m p.2 p.1) [] ≠ [] := by
    refine foldl_ginsert_ne_nil _ [] (Or.inr ?_)
    intro he
    apply hfp
    cases hl : fit_predict (((collectTitleData results).map Prod.fst).map encode) with
    | nil => rfl
    | cons a rest =>
      rw [hl] at he
      simp [List.enum, List.enumFrom] at he
  simp [cluster_into_roles, h0, h1]
  intro _
  rw [List.map_map] at hgr
  exact hgr

def sdSurgeon : ScoringDetail :=
  { vacancy_id := "v2", enriched_job_title := "Surgeon", role_need_id := "n1",
    task_score := 4, domain_score := 4, seniority_score := 4,
    composite_score := 4 }

def rrDouble : RetrievalResult :=
  { role_need_id := "n1", scored := [sdNurse, sdSurgeon] }

/-- C5 witness: two distinct surviving titles and a two-cluster labelling
raise the modelled NameError before any cluster is produced. -/
theorem cluster_multi_title_name_error_witness :
    cluster_into_roles [] [rrDouble] (fun _ => [1]) (fun _ => [0, 1])
      = .error (.nameError "SenioritySignal") :=
  cluster_multi_title_name_error [] [rrDouble] (fun _ => [1]) (fun _ => [0, 1])
    (by decide) (by decide)

/-- C9: the only roles list _cluster_into_roles can ever return is the empty
one (any input with at least one surviving title raises the NameError of
lines 307/386 before the sort at line 405 is reached); the returned list is
therefore sorted by non-increasing confidence only vacuously. -/
theorem cluster_ok_implies_no_roles (role_needs : List RoleNeed)
    (results : List RetrievalResult) (encode : String → List ℚ)
    (fit_predict : List (List ℚ) → List Nat)
    (roles : List RecommendedRole) (clusters : List ClusterInfo)
    (h : cluster_into_roles role_needs results encode fit_predict
      = .ok (roles, clusters)) :
    roles = [] ∧
      List.Sorted (fun a b => b.confidence ≤ a.confidence) roles := by
  have hroles : roles = [] := by
    simp only [cluster_into_roles] at h
    split_ifs at h with h0 h1 h2 <;> simp at h <;> exact h.1
  subst hroles
  exact ⟨rfl, List.sorted_nil⟩

/-- C9 witness: a run with no surviving titles returns the empty, vacuously
sorted roles list. -/
theorem cluster_ok_implies_no_roles_witness :
    ([] : List RecommendedRole) = [] ∧
      List.Sorted (fun a b => b.confidence ≤ a.confidence)
        ([] : List RecommendedRole) :=
  cluster_ok_implies_no_roles [] [] (fun _ => []) (fun _ => []) [] [] rfl

/-! ## Dual-channel retrieval (phase4_match.py, _dual_channel_retrieval) -/

/-- Line 103: the first 20 skill keywords joined with commas. -/
def skill_string (need : RoleNeed) : String :=
  String.intercalate ", " (need.derived_skill_keywords.take 20)

/-- The vacancy identifier a search result row resolves to
(store.get_record(rec_idx) followed by rec["identifier"]). -/
def resolveVid (records : List MetaRec) (p : Nat × ℚ) : String :=
  (pyGetD records p.1 {}).identifier

/-- The RetrievalHit built for a title-channel search row (lines 90-97). -/
def titleHit (records : List MetaRec) (q : String) (p : Nat × ℚ) :
    RetrievalHit :=
  let r := pyGetD records p.1 {}
  { vacancy_id := r.identifier, vacancy_title := r.title,
    enriched_job_title := r.enriched_job_title, cosine_score := p.2,
    channel := RetrievalChannel.title, query_used := q }

/-- The RetrievalHit built for a skills-channel search row (lines 110-117). -/
def skillsHit (records : List MetaRec) (qs : String) (p : Nat × ℚ) :
    RetrievalHit :=
  let r := pyGetD records p.1 {}
  { vacancy_id := r.identifier, vacancy_title := r.title,
    enriched_job_title := r.enriched_job_title, cosine_score := p.2,
    channel := RetrievalChannel.skills, query_used := qs }

/-- One title-channel hit processed (lines 87-99): build the title hit and
store it if the vacancy id is new or the score strictly improves. -/
def chanAStep (records : List MetaRec) (q : String)
    (m : List (String × RetrievalHit)) (p : Nat × ℚ) :
    List (String × RetrievalHit) :=
  let vid := resolveVid records p
  let hit := titleHit records q p
  match alookup m vid with
  | none => aupdate m vid hit
  | some old => if old.cosine_score < p.2 then aupdate m vid hit else m

/-- One skills-channel hit processed (lines 107-127): on collision keep the
max score and upgrade the stored hit to dual, otherwise insert the skills
hit. -/
def chanBStep (records : List MetaRec) (qs : String)
    (m : List (String × RetrievalHit)) (p : Nat × ℚ) :
    List (String × RetrievalHit) :=
  let vid := resolveVid records p
  let hit := skillsHit records qs p
  match alookup m vid with
  | some existing =>
      aupdate m vid
        { existing with cosine_score := max existing.cosine_score p.2,
                        channel := RetrievalChannel.dual }
  | none => aupdate m vid hit

/-- Per-need body of _dual_channel_retrieval (lines 77-132): channel A runs
only when derived_job_titles is non-empty (one search result list per title
query), channel B only when derived_skill_keywords is non-empty (a single
query built from the joined skill string, truncated to 100 characters for
query_used); the hits are the dict values in insertion order. -/
def dual_channel_hits (records : List MetaRec) (need : RoleNeed)
    (searchA : List (List (Nat × ℚ))) (searchB : List (Nat × ℚ)) :
    List RetrievalHit :=
  let m1 := if need.derived_job_titles.isEmpty then []
    else (need.derived_job_titles.zip searchA).foldl
      (fun m qh => qh.2.foldl (chanAStep records qh.1) m) []
  let m2 := if need.derived_skill_keywords.isEmpty then m1
    else searchB.foldl (chanBStep records (pyTakeStr (skill_string need) 100)) m1
  m2.map Prod.snd

/-- The outer loop of _dual_channel_retrieval: one RetrievalResult per role
need, with the searches delegated to the embedding+index oracles. -/
def dual_channel_retrieval (records : List MetaRec) (needs : List RoleNeed)
    (searchT : List String → List (List (Nat × ℚ)))
    (searchS : String → List (Nat × ℚ)) : List RetrievalResult :=
  needs.map (fun n =>
    { role_need_id := n.id,
      hits := dual_channel_hits records n (searchT n.derived_job_titles)
        (searchS (skill_string n)) })

/-! ### Characterisation helpers for the fusion theorem -/

def vidsOf (records : List MetaRec) (l : List (Nat × ℚ)) : List String :=
  l.map (resolveVid records)

/-- All scores a given vacancy id received in a result list. -/
def scoresFor (records : List MetaRec) (vid : String) (l : List (Nat × ℚ)) :
    List ℚ :=
  (l.filter (fun p => resolveVid records p == vid)).map Prod.snd

/-- The title-channel results flattened across title queries. -/
def flatHitsA (queries : List String) (searchA : List (List (Nat × ℚ))) :
    List (Nat × ℚ) :=
  ((queries.zip searchA).map Prod.snd).join

def omax : Option ℚ → Option ℚ → Option ℚ
  | none, b => b
  | some a, none => some a
  | some a, some b => some (max a b)

def maxQ : List ℚ → Option ℚ
  | [] => none
  | s :: rest => omax (some s) (maxQ rest)

theorem omax_assoc (a b c : Option ℚ) :
    omax (omax a b) c = omax a (omax b c) := by
  cases a <;> cases b <;> cases c <;> simp [omax, max_assoc]

/-! ### Map well-formedness: distinct keys, each hit stored under its own id -/

theorem alookup_mem {κ α : Type} [DecidableEq κ] :
    ∀ (m : List (κ × α)) (k : κ) (v : α), alookup m k = some v → (k, v) ∈ m := by
  intro m
  induction m with
  | nil => intro k v h; simp [alookup] at h
  | cons p rest ih =>
    intro k v h
    obtain ⟨pk, pv⟩ := p
    by_cases hp : pk = k
    · subst hp
      simp [alookup] at h
      subst h
      exact List.mem_cons_self _ _
    · simp [alookup, hp] at h
      exact List.mem_cons_of_mem _ (ih k v h)

theorem mem_aupdate {κ α : Type} [DecidableEq κ] :
    ∀ (m : List (κ × α)) (k : κ) (v : α) (e : κ × α),
      e ∈ aupdate m k v → e ∈ m ∨ e = (k, v) := by
  intro m
  induction m with
  | nil => intro k v e h; simp [aupdate] at h; exact Or.inr h
  | cons p rest ih =>
    intro k v e h
    obtain ⟨pk, pv⟩ := p
    by_cases hp : pk = k
    · subst hp
      simp [aupdate] at h
      rcases h with h | h
      · exact Or.inr (by simp [h])
      · exact Or.inl (List.mem_cons_of_mem _ h)
    · simp [aupdate, hp] at h
      rcases h with h | h
      · exact Or.inl (by simp [h])
      · rcases ih k v e h with h' | h'
        · exact Or.inl (List.mem_cons_of_mem _ h')
        · exact Or.inr h'

theorem keys_aupdate {κ α : Type} [DecidableEq κ] :
    ∀ (m : List (κ × α)) (k : κ) (v : α),
      (aupdate m k v).map Prod.fst
        = if k ∈ m.map Prod.fst then m.map Prod.fst
          else m.map Prod.fst ++ [k] := by
  intro m
  induction m with
  | nil => intro k v; simp [aupdate]
  | cons p rest ih =>
    intro k v
    obtain ⟨pk, pv⟩ := p
    by_cases hp : pk = k
    · subst hp
      simp [aupdate]
    · have hne : ¬ k = pk := fun he => hp he.symm
      by_cases hk : k ∈ rest.map Prod.fst
      · simp [aupdate, hp, ih, hk, hne]
      · simp [aupdate, hp, ih, hk, hne]

/-- Invariant of the all_hits dict: keys are distinct and every stored hit
carries its key as vacancy_id. -/
def WFmap (m : List (String × RetrievalHit)) : Prop :=
  (m.map Prod.fst).Nodup ∧ ∀ e ∈ m, e.2.vacancy_id = e.1

theorem WFmap_aupdate (m : List (String × RetrievalHit)) (k : String)
    (v : RetrievalHit) (hw : WFmap m) (hv : v.vacancy_id = k) :
    WFmap (aupdate m k v) := by
  constructor
  · rw [keys_aupdate]
    by_cases hk : k ∈ m.map Prod.fst
    · simpa [hk] using hw.1
    · simp only [hk, if_false]
      rw [List.nodup_append]
      exact ⟨hw.1, by simp, by simp [List.disjoint_right, hk]⟩
  · intro e he
    rcases mem_aupdate m k v e he with h | h
    · exact hw.2 e h
    · subst h; exact hv

theorem nodup_keys_eq {κ α : Type} [DecidableEq κ] :
    ∀ (m : List (κ × α)), (m.map Prod.fst).Nodup →
      ∀ e₁ ∈ m, ∀ e₂ ∈ m, e₁.1 = e₂.1 → e₁ = e₂ := by
  intro m
  induction m with
  | nil => intro _ e₁ h₁; simp at h₁
  | cons p rest ih =>
    intro hnd e₁ h₁ e₂ h₂ hk
    rw [List.map_cons, List.nodup_cons] at hnd
    rcases List.mem_cons.mp h₁ with h₁ | h₁ <;>
      rcases List.mem_cons.mp h₂ with h₂ | h₂
    · rw [h₁, h₂]
    · exfalso
      apply hnd.1
      rw [h₁] at hk
      rw [hk]
      exact List.mem_map.mpr ⟨e₂, h₂, rfl⟩
    · exfalso
      apply hnd.1
      rw [h₂] at hk
      rw [← hk]
      exact List.mem_map.mpr ⟨e₁, h₁, rfl⟩
    · exact ih hnd.2 e₁ h₁ e₂ h₂ hk

/-! ### Channel step characterisations -/

theorem chanAStep_cases (records : List MetaRec) (q : String)
    (m : List (String × RetrievalHit)) (p : Nat × ℚ) :
    chanAStep records q m p
      = aupdate m (resolveVid records p) (titleHit records q p) ∨
    chanAStep records q m p = m := by
  rcases hll : alookup m (resolveVid records p) with _ | old
  · exact Or.inl (by simp [chanAStep, hll])
  · by_cases hif : old.cosine_score < p.2
    · exact Or.inl (by simp [chanAStep, hll, hif])
    · exact Or.inr (by simp [chanAStep, hll, hif])

theorem chanBStep_cases (records : List MetaRec) (qs : String)
    (m : List (String × RetrievalHit)) (p : Nat × ℚ) :
    (∃ ex, alookup m (resolveVid records p) = some ex ∧
        chanBStep records qs m p
          = aupdate m (resolveVid records p)
              { ex with cosine_score := max ex.cosine_score p.2,
                        channel := RetrievalChannel.dual }) ∨
    (alookup m (resolveVid records p) = none ∧
        chanBStep records qs m p
          = aupdate m (resolveVid records p) (skillsHit records qs p)) := by
  rcases hll : alookup m (resolveVid records p) with _ | ex
  · exact Or.inr ⟨rfl, by simp [chanBStep, hll]⟩
  · exact Or.inl ⟨ex, rfl, by simp [chanBStep, hll]⟩

theorem alookup_chanAStep_ne (records : List MetaRec) (q : String)
    (m : List (String × RetrievalHit)) (p : Nat × ℚ) (vid : String)
    (h : resolveVid records p ≠ vid) :
    alookup (chanAStep records q m p) vid = alookup m vid := by
  rcases chanAStep_cases records q m p with hc | hc <;> rw [hc]
  exact alookup_aupdate_ne m _ vid _ (fun he => h he.symm)

theorem alookup_chanAStep_eq (records : List MetaRec) (q : String)
    (m : List (String × RetrievalHit)) (p : Nat × ℚ) (vid : String)
    (h : resolveVid records p = vid) :
    (alookup (chanAStep records q m p) vid).map RetrievalHit.cosine_score
      = omax ((alookup m vid).map RetrievalHit.cosine_score) (some p.2) := by
  subst h
  rcases hll : alookup m (resolveVid records p) with _ | old
  · have hred : chanAStep records q m p
        = aupdate m (resolveVid records p) (titleHit records q p) := by
      simp [chanAStep, hll]
    rw [hred, alookup_aupdate_self]
    simp [titleHit, omax]
  · by_cases hif : old.cosine_score < p.2
    · have hred : chanAStep records q m p
          = aupdate m (resolveVid records p) (titleHit records q p) := by
        simp [chanAStep, hll, hif]
      rw [hred, alookup_aupdate_self]
      simp [titleHit, omax, max_eq_right (le_of_lt hif)]
    · have hred : chanAStep records q m p = m := by
        simp [chanAStep, hll, hif]
      rw [hred, hll]
      simp [omax, max_eq_left (le_of_not_lt hif)]

theorem chanAStep_channel (records : List MetaRec) (q : String)
    (m : List (String × RetrievalHit)) (p : Nat × ℚ)
    (hm : ∀ e ∈ m, e.2.channel = RetrievalChannel.title) :
    ∀ e ∈ chanAStep records q m p, e.2.channel = RetrievalChannel.title := by
  intro e he
  rcases chanAStep_cases records q m p with hc | hc
  · rw [hc] at he
    rcases mem_aupdate _ _ _ _ he with h | h
    · exact hm e h
    · rw [h]
      simp [titleHit]
  · rw [hc] at he
    exact hm e he

theorem WFmap_chanAStep (records : List MetaRec) (q : String)
    (m : List (String × RetrievalHit)) (p : Nat × ℚ) (hw : WFmap m) :
    WFmap (chanAStep records q m p) := by
  rcases chanAStep_cases records q m p with hc | hc <;> rw [hc]
  · exact WFmap_aupdate m _ _ hw rfl
  · exact hw

theorem alookup_chanBStep_ne (records : List MetaRec) (qs : String)
    (m : List (String × RetrievalHit)) (p : Nat × ℚ) (vid : String)
    (h : resolveVid records p ≠ vid) :
    alookup (chanBStep records qs m p) vid = alookup m vid := by
  rcases chanBStep_cases records qs m p with ⟨ex, _, hc⟩ | ⟨_, hc⟩ <;> rw [hc] <;>
    exact alookup_aupdate_ne m _ vid _ (fun he => h he.symm)

theorem WFmap_chanBStep (records : List MetaRec) (qs : String)
    (m : List (String × RetrievalHit)) (p : Nat × ℚ) (hw : WFmap m) :
    WFmap (chanBStep records qs m p) := by
  rcases chanBStep_cases records qs m p with ⟨ex, hex, hc⟩ | ⟨_, hc⟩ <;> rw [hc]
  · refine WFmap_aupdate m _ _ hw ?_
    have h := hw.2 _ (alookup_mem m _ ex hex)
    simpa using h
  · exact WFmap_aupdate m _ _ hw rfl

/-! ### Channel fold lemmas -/

theorem chanA_fold_core (records : List MetaRec) (vid : String) :
    ∀ (L : List (String × (Nat × ℚ))) (m : List (String × RetrievalHit)),
      (alookup (L.foldl (fun m qp => chanAStep records qp.1 m qp.2) m) vid).map
          RetrievalHit.cosine_score
        = omax ((alookup m vid).map RetrievalHit.cosine_score)
            (maxQ (scoresFor records vid (L.map Prod.snd))) := by
  intro L
  induction L with
  | nil =>
    intro m
    simp only [List.foldl_nil, List.map_nil]
    cases alookup m vid <;> rfl
  | cons qp rest ih =>
    intro m
    simp only [List.foldl_cons]
    rw [ih (chanAStep records qp.1 m qp.2)]
    by_cases h : resolveVid records qp.2 = vid
    · rw [alookup_chanAStep_eq records qp.1 m qp.2 vid h]
      have hsc : scoresFor records vid ((qp :: rest).map Prod.snd)
          = qp.2.2 :: scoresFor records vid (rest.map Prod.snd) := by
        simp [scoresFor, h]
      rw [hsc, omax_assoc]
      rfl
    · rw [alookup_chanAStep_ne records qp.1 m qp.2 vid h]
      have hsc : scoresFor records vid ((qp :: rest).map Prod.snd)
          = scoresFor records vid (rest.map Prod.snd) := by
        simp [scoresFor, h]
      rw [hsc]

theorem chanA_fold_channel (records : List MetaRec) :
    ∀ (L : List (String × (Nat × ℚ))) (m : List (String × RetrievalHit)),
      (∀ e ∈ m, e.2.channel = RetrievalChannel.title) →
      ∀ e ∈ L.foldl (fun m qp => chanAStep records qp.1 m qp.2) m,
        e.2.channel = RetrievalChannel.title := by
  intro L
  induction L with
  | nil => intro m hm; simpa using hm
  | cons qp rest ih =>
    intro m hm
    simp only [List.foldl_cons]
    exact ih _ (chanAStep_channel records qp.1 m qp.2 hm)

theorem WFmap_chanA_fold (records : List MetaRec) :
    ∀ (L : List (String × (Nat × ℚ))) (m : List (String × RetrievalHit)),
      WFmap m →
      WFmap (L.foldl (fun m qp => chanAStep records qp.1 m qp.2) m) := by
  intro L
  induction L with
  | nil => intro m hm; simpa using hm
  | cons qp rest ih =>
    intro m hm
    simp only [List.foldl_cons]
    exact ih _ (WFmap_chanAStep records qp.1 m qp.2 hm)

theorem chanB_fold_ne (records : List MetaRec) (qs : String) :
    ∀ (B : List (Nat × ℚ)) (m : List (String × RetrievalHit)) (vid : String),
      vid ∉ vidsOf records B →
      alookup (B.foldl (chanBStep records qs) m) vid = alookup m vid := by
  intro B
  induction B with
  | nil => intro m vid _; rfl
  | cons p rest ih =>
    intro m vid hv
    simp only [vidsOf, List.map_cons, List.mem_cons] at hv
    push_neg at hv
    simp only [List.foldl_cons]
    rw [ih (chanBStep records qs m p) vid (by simpa [vidsOf] using hv.2),
      alookup_chanBStep_ne records qs m p vid (fun he => hv.1 he.symm)]

theorem WFmap_chanB_fold (records : List MetaRec) (qs : String) :
    ∀ (B : List (Nat × ℚ)) (m : List (String × RetrievalHit)),
      WFmap m → WFmap (B.foldl (chanBStep records qs) m) := by
  intro B
  induction B with
  | nil => intro m hm; simpa using hm
  | cons p rest ih =>
    intro m hm
    simp only [List.foldl_cons]
    exact ih _ (WFmap_chanBStep records qs m p hm)

theorem chanB_fold_found (records : List MetaRec) (qs : String)
    (B₁ B₂ : List (Nat × ℚ)) (p : Nat × ℚ)
    (m : List (String × RetrievalHit)) (vid : String)
    (hp : resolveVid records p = vid)
    (h₁ : vid ∉ vidsOf records B₁) (h₂ : vid ∉ vidsOf records B₂) :
    alookup ((B₁ ++ p :: B₂).foldl (chanBStep records qs) m) vid
      = some (match alookup m vid with
          | some ex => { ex with cosine_score := max ex.cosine_score p.2,
                                 channel := RetrievalChannel.dual }
          | none => skillsHit records qs p) := by
  subst hp
  rw [List.foldl_append, List.foldl_cons,
    chanB_fold_ne records qs B₂ _ _ h₂]
  have hm1 : alookup (B₁.foldl (chanBStep records qs) m) (resolveVid records p)
      = alookup m (resolveVid records p) :=
    chanB_fold_ne records qs B₁ m _ h₁
  rcases chanBStep_cases records qs (B₁.foldl (chanBStep records qs) m) p with
    ⟨ex, hex, hc⟩ | ⟨hnone, hc⟩
  · rw [hc, alookup_aupdate_self]
    rw [hm1] at hex
    rw [hex]
  · rw [hc, alookup_aupdate_self]
    rw [hm1] at hnone
    rw [hnone]

theorem chanA_nested_eq (records : List MetaRec) :
    ∀ (ql : List (String × List (Nat × ℚ))) (m : List (String × RetrievalHit)),
      ql.foldl (fun m qh => qh.2.foldl (chanAStep records qh.1) m) m
        = ((ql.map (fun qh => qh.2.map (fun p => (qh.1, p)))).join).foldl
            (fun m qp => chanAStep records qp.1 m qp.2) m := by
  intro ql
  induction ql with
  | nil => intro m; rfl
  | cons qh rest ih =>
    intro m
    simp only [List.foldl_cons, List.map_cons, List.join_cons, List.foldl_append]
    rw [← ih, List.foldl_map]

theorem tagged_map_snd (queries : List String)
    (searchA : List (List (Nat × ℚ))) :
    (((queries.zip searchA).map (fun qh => qh.2.map (fun p => (qh.1, p)))).join).map
        Prod.snd
      = flatHitsA queries searchA := by
  simp only [flatHitsA, List.map_join, List.map_map]
  refine congrArg List.join (List.map_congr_left ?_)
  intro qh _
  simp [List.map_map, Function.comp]

theorem scoresFor_eq_nil_of_not_mem (records : List MetaRec) (vid : String)
    (l : List (Nat × ℚ)) (h : vid ∉ vidsOf records l) :
    scoresFor records vid l = [] := by
  have : l.filter (fun p => resolveVid records p == vid) = [] := by
    rw [List.filter_eq_nil]
    intro p hp hbe
    exact h (List.mem_map.mpr ⟨p, hp, by simpa using hbe⟩)
  simp [scoresFor, this]

theorem scoresFor_ne_nil_of_mem (records : List MetaRec) (vid : String)
    (l : List (Nat × ℚ)) (h : vid ∈ vidsOf records l) :
    scoresFor records vid l ≠ [] := by
  obtain ⟨p, hp, hpv⟩ := List.mem_map.mp h
  intro hnil
  simp only [scoresFor, List.map_eq_nil, List.filter_eq_nil] at hnil
  exact hnil p hp (by simpa using hpv)

theorem maxQ_eq_none_iff (l : List ℚ) : maxQ l = none ↔ l = [] := by
  cases l with
  | nil => simp [maxQ]
  | cons s rest =>
    simp only [maxQ]
    cases maxQ rest <;> simp [omax]

theorem maxQ_isSome_of_mem (records : List MetaRec) (vid : String)
    (l : List (Nat × ℚ)) (h : vid ∈ vidsOf records l) :
    ∃ s, maxQ (scoresFor records vid l) = some s := by
  cases hq : maxQ (scoresFor records vid l) with
  | none =>
    exact absurd ((maxQ_eq_none_iff _).mp hq)
      (scoresFor_ne_nil_of_mem records vid l h)
  | some s => exact ⟨s, rfl⟩

theorem vids_split (records : List MetaRec) (B : List (Nat × ℚ)) (vid : String)
    (hmem : vid ∈ vidsOf records B) (hnd : (vidsOf records B).Nodup) :
    ∃ B₁ p B₂, B = B₁ ++ p :: B₂ ∧ resolveVid records p = vid ∧
      vid ∉ vidsOf records B₁ ∧ vid ∉ vidsOf records B₂ ∧
      scoresFor records vid B = [p.2] := by
  obtain ⟨p, hp, hpv⟩ := List.mem_map.mp hmem
  obtain ⟨B₁, B₂, rfl⟩ := List.append_of_mem hp
  have hvids : vidsOf records (B₁ ++ p :: B₂)
      = vidsOf records B₁ ++ vid :: vidsOf records B₂ := by
    simp [vidsOf, hpv]
  rw [hvids] at hnd
  rw [List.nodup_middle] at hnd
  rw [List.nodup_cons] at hnd
  have hnot : vid ∉ vidsOf records B₁ ∧ vid ∉ vidsOf records B₂ := by
    constructor
    · intro hc; exact hnd.1 (List.mem_append.mpr (Or.inl hc))
    · intro hc; exact hnd.1 (List.mem_append.mpr (Or.inr hc))
  refine ⟨B₁, p, B₂, rfl, hpv, hnot.1, hnot.2, ?_⟩
  have hf₁ : B₁.filter (fun q => resolveVid records q == vid) = [] := by
    rw [List.filter_eq_nil]
    intro q hq hbe
    exact hnot.1 (List.mem_map.mpr ⟨q, hq, by simpa using hbe⟩)
  have hf₂ : B₂.filter (fun q => resolveVid records q == vid) = [] := by
    rw [List.filter_eq_nil]
    intro q hq hbe
    exact hnot.2 (List.mem_map.mpr ⟨q, hq, by simpa using hbe⟩)
  simp [scoresFor, List.filter_append, hf₁, hf₂, List.filter_cons, hpv]

/-- C2: per role need, a vacancy id retrieved by both the title channel and
the skills channel ends up with exactly one fused hit whose cosine_score is
the maximum of the two channels' scores (the title channel's score being the
best across its title queries) and whose channel is dual; an id seen by only
one channel keeps that channel's label and score.  Hypotheses: both channels
ran (non-empty titles and keywords) and the single skills query returns
pairwise-distinct vacancy ids (FAISS returns distinct rows and identifiers
are unique). -/
theorem dual_channel_fusion (records : List MetaRec) (need : RoleNeed)
    (searchA : List (List (Nat × ℚ))) (searchB : List (Nat × ℚ)) (vid : String)
    (hA : need.derived_job_titles ≠ [])
    (hB : need.derived_skill_keywords ≠ [])
    (hnd : (vidsOf records searchB).Nodup) :
    (vid ∈ vidsOf records (flatHitsA need.derived_job_titles searchA) →
      vid ∈ vidsOf records searchB →
      ∃ h ∈ dual_channel_hits records need searchA searchB,
        h.vacancy_id = vid ∧ h.channel = RetrievalChannel.dual ∧
        some h.cosine_score
          = omax (maxQ (scoresFor records vid
                (flatHitsA need.derived_job_titles searchA)))
              (maxQ (scoresFor records vid searchB))) ∧
    (vid ∈ vidsOf records (flatHitsA need.derived_job_titles searchA) →
      vid ∉ vidsOf records searchB →
      ∃ h ∈ dual_channel_hits records need searchA searchB,
        h.vacancy_id = vid ∧ h.channel = RetrievalChannel.title ∧
        some h.cosine_score
          = maxQ (scoresFor records vid
              (flatHitsA need.derived_job_titles searchA))) ∧
    (vid ∉ vidsOf records (flatHitsA need.derived_job_titles searchA) →
      vid ∈ vidsOf records searchB →
      ∃ h ∈ dual_channel_hits records need searchA searchB,
        h.vacancy_id = vid ∧ h.channel = RetrievalChannel.skills ∧
        some h.cosine_score = maxQ (scoresFor records vid searchB)) ∧
    (∀ h₁ ∈ dual_channel_hits records need searchA searchB,
      ∀ h₂ ∈ dual_channel_hits records need searchA searchB,
        h₁.vacancy_id = h₂.vacancy_id → h₁ = h₂) := by
  have hempty1 : need.derived_job_titles.isEmpty = false := by
    cases hc : need.derived_job_titles with
    | nil => exact absurd hc hA
    | cons a rest => rfl
  have hempty2 : need.derived_skill_keywords.isEmpty = false := by
    cases hc : need.derived_skill_keywords with
    | nil => exact absurd hc hB
    | cons a rest => rfl
  have hout : dual_channel_hits records need searchA searchB
      = (searchB.foldl
          (chanBStep records (pyTakeStr (skill_string need) 100))
          ((need.derived_job_titles.zip searchA).foldl
            (fun m qh => qh.2.foldl (chanAStep records qh.1) m) [])).map
          Prod.snd := by
    simp [dual_channel_hits, hempty1, hempty2]
  have hAcore : (alookup ((need.derived_job_titles.zip searchA).foldl
        (fun m qh => qh.2.foldl (chanAStep records qh.1) m) []) vid).map
        RetrievalHit.cosine_score
      = maxQ (scoresFor records vid
          (flatHitsA need.derived_job_titles searchA)) := by
    rw [chanA_nested_eq, chanA_fold_core, tagged_map_snd]
    rfl
  have hchan : ∀ e ∈ (need.derived_job_titles.zip searchA).foldl
      (fun m qh => qh.2.foldl (chanAStep records qh.1) m) [],
      e.2.channel = RetrievalChannel.title := by
    rw [chanA_nested_eq]
    exact chanA_fold_channel records _ [] (by simp)
  have hwf1 : WFmap ((need.derived_job_titles.zip searchA).foldl
      (fun m qh => qh.2.foldl (chanAStep records qh.1) m) []) := by
    rw [chanA_nested_eq]
    exact WFmap_chanA_fold records _ [] ⟨by simp, by simp⟩
  have hwf2 : WFmap (searchB.foldl
      (chanBStep records (pyTakeStr (skill_string need) 100))
      ((need.derived_job_titles.zip searchA).foldl
        (fun m qh => qh.2.foldl (chanAStep records qh.1) m) [])) :=
    WFmap_chanB_fold records _ searchB _ hwf1
  have hmem : ∀ h : RetrievalHit,
      alookup (searchB.foldl
        (chanBStep records (pyTakeStr (skill_string need) 100))
        ((need.derived_job_titles.zip searchA).foldl
          (fun m qh => qh.2.foldl (chanAStep records qh.1) m) [])) vid = some h →
      h ∈ dual_channel_hits records need searchA searchB := by
    intro h hh
    rw [hout]
    exact List.mem_map.mpr ⟨(vid, h), alookup_mem _ _ _ hh, rfl⟩
  have hid : ∀ h : RetrievalHit,
      alookup (searchB.foldl
        (chanBStep records (pyTakeStr (skill_string need) 100))
        ((need.derived_job_titles.zip searchA).foldl
          (fun m qh => qh.2.foldl (chanAStep records qh.1) m) [])) vid = some h →
      h.vacancy_id = vid := by
    intro h hh
    exact hwf2.2 _ (alookup_mem _ _ _ hh)
  refine ⟨?_, ?_, ?_, ?_⟩
  · -- both channels: dual with max of the two channel scores
    intro hvA hvB
    obtain ⟨sA, hsA⟩ := maxQ_isSome_of_mem records vid _ hvA
    rw [hsA] at hAcore
    obtain ⟨ex, hex, hexs⟩ := Option.map_eq_some'.mp hAcore
    obtain ⟨B₁, p, B₂, hBeq, hpvid, hnB₁, hnB₂, hsc⟩ :=
      vids_split records searchB vid hvB hnd
    have hfound := chanB_fold_found records
      (pyTakeStr (skill_string need) 100) B₁ B₂ p
      ((need.derived_job_titles.zip searchA).foldl
        (fun m qh => qh.2.foldl (chanAStep records qh.1) m) []) vid hpvid hnB₁ hnB₂
    rw [← hBeq] at hfound
    have hfound' : alookup (searchB.foldl
        (chanBStep records (pyTakeStr (skill_string need) 100))
        ((need.derived_job_titles.zip searchA).foldl
          (fun m qh => qh.2.foldl (chanAStep records qh.1) m) [])) vid
        = some { ex with cosine_score := max ex.cosine_score p.2,
                         channel := RetrievalChannel.dual } := by
      rw [hfound, hex]
    refine ⟨_, hmem _ hfound', hid _ hfound', rfl, ?_⟩
    rw [hsA, hsc]
    simp [maxQ, omax, hexs]
  · -- title channel only
    intro hvA hvB
    obtain ⟨sA, hsA⟩ := maxQ_isSome_of_mem records vid _ hvA
    rw [hsA] at hAcore
    obtain ⟨ex, hex, hexs⟩ := Option.map_eq_some'.mp hAcore
    have hm2 : alookup (searchB.foldl
        (chanBStep records (pyTakeStr (skill_string need) 100))
        ((need.derived_job_titles.zip searchA).foldl
          (fun m qh => qh.2.foldl (chanAStep records qh.1) m) [])) vid
        = some ex := by
      rw [chanB_fold_ne records _ searchB _ vid hvB, hex]
    refine ⟨ex, hmem _ hm2, hid _ hm2, ?_, ?_⟩
    · exact hchan (vid, ex) (alookup_mem _ _ _ hex)
    · rw [hsA, hexs]
  · -- skills channel only
    intro hvA hvB
    have hnone : alookup ((need.derived_job_titles.zip searchA).foldl
        (fun m qh => qh.2.foldl (chanAStep records qh.1) m) []) vid = none := by
      have h0 : scoresFor records vid
          (flatHitsA need.derived_job_titles searchA) = [] :=
        scoresFor_eq_nil_of_not_mem records vid _ hvA
      rw [h0] at hAcore
      have h1 : (alookup ((need.derived_job_titles.zip searchA).foldl
          (fun m qh => qh.2.foldl (chanAStep records qh.1) m) []) vid).map
          RetrievalHit.cosine_score = none := by
        simpa [maxQ] using hAcore
      exact Option.map_eq_none'.mp h1
    obtain ⟨B₁, p, B₂, hBeq, hpvid, hnB₁, hnB₂, hsc⟩ :=
      vids_split records searchB vid hvB hnd
    have hfound := chanB_fold_found records
      (pyTakeStr (skill_string need) 100) B₁ B₂ p
      ((need.derived_job_titles.zip searchA).foldl
        (fun m qh => qh.2.foldl (chanAStep records qh.1) m) []) vid hpvid hnB₁ hnB₂
    rw [← hBeq] at hfound
    have hfound' : alookup (searchB.foldl
        (chanBStep records (pyTakeStr (skill_string need) 100))
        ((need.derived_job_titles.zip searchA).foldl
          (fun m qh => qh.2.foldl (chanAStep records qh.1) m) [])) vid
        = some (skillsHit records (pyTakeStr (skill_string need) 100) p) := by
      rw [hfound, hnone]
    refine ⟨_, hmem _ hfound', hid _ hfound', ?_, ?_⟩
    · simp [skillsHit]
    · rw [hsc]
      simp [skillsHit, maxQ, omax]
  · -- at most one fused hit per vacancy id
    intro h₁ hh₁ h₂ hh₂ hidq
    rw [hout] at hh₁ hh₂
    obtain ⟨e₁, he₁, rfl⟩ := List.mem_map.mp hh₁
    obtain ⟨e₂, he₂, rfl⟩ := List.mem_map.mp hh₂
    have hk : e₁.1 = e₂.1 := by
      rw [← hwf2.2 e₁ he₁, ← hwf2.2 e₂ he₂]
      exact hidq
    rw [nodup_keys_eq _ hwf2.1 e₁ he₁ e₂ he₂ hk]

def recCoord : MetaRec :=
  { identifier := "v1", title := "Care Coordinator",
    enriched_job_title := "Care Coordinator" }

def recClerk : MetaRec :=
  { identifier := "v2", title := "Ward Clerk",
    enriched_job_title := "Ward Clerk" }

def needCare : RoleNeed :=
  { id := "n1", derived_job_titles := ["Care Coordinator"],
    derived_skill_keywords := ["triage", "scheduling"] }

def searchATest : List (List (Nat × ℚ)) := [[(0, 8/10)]]

def searchBTest : List (Nat × ℚ) := [(0, 7/10), (1, 6/10)]

/-- C2 witness: on a concrete two-record store, vacancy v1 (retrieved by both
channels with scores 0.8 and 0.7) is fused to a dual hit carrying the maximum
score, and vacancy v2 (skills channel only) keeps the skills label and its
own score. -/
theorem dual_channel_fusion_witness :
    (∃ h ∈ dual_channel_hits [recCoord, recClerk] needCare searchATest searchBTest,
      h.vacancy_id = "v1" ∧ h.channel = RetrievalChannel.dual ∧
      some h.cosine_score
        = omax (maxQ (scoresFor [recCoord, recClerk] "v1"
              (flatHitsA needCare.derived_job_titles searchATest)))
            (maxQ (scoresFor [recCoord, recClerk] "v1" searchBTest))) ∧
    (∃ h ∈ dual_channel_hits [recCoord, recClerk] needCare searchATest searchBTest,
      h.vacancy_id = "v2" ∧ h.channel = RetrievalChannel.skills ∧
      some h.cosine_score
        = maxQ (scoresFor [recCoord, recClerk] "v2" searchBTest)) := by
  constructor
  · refine (dual_channel_fusion [recCoord, recClerk] needCare searchATest
      searchBTest "v1" (by decide) (by decide) (by decide)).1 ?_ ?_ <;> decide
  · refine (dual_channel_fusion [recCoord, recClerk] needCare searchATest
      searchBTest "v2" (by decide) (by decide) (by decide)).2.2.1 ?_ ?_ <;> decide
